import Mathlib

/-!
Verification development for the Tableau workbook translator
(`translate_tableau.py`).  Python strings are modelled as `List Char`; the
regex based scanning functions of the source are embedded as executable
fuel-indexed scanners (the fuel is always instantiated with the length of the
scanned text, which each step strictly decreases, so the fuel never runs out).
-/

/- ## Character classes (Python `\s`, `\d`, `str.strip`) -/

/-- The characters matched by the regex class `\s` (and stripped by
`str.strip()`) on Python `str` values. -/
def isPySpace (c : Char) : Bool :=
  c = ' ' || c = '\t' || c = '\n' || c = '\r' || c = '\x0b' || c = '\x0c' ||
  c = '\x1c' || c = '\x1d' || c = '\x1e' || c = '\x1f' || c = '\x85' || c = '\xa0' ||
  c = '\u1680' || ('\u2000' ≤ c && c ≤ '\u200A') || c = '\u2028' || c = '\u2029' ||
  c = '\u202F' || c = '\u205F' || c = '\u3000'

/-- Decimal digits, as matched by the regex class `\d`. -/
def isPyDigit (c : Char) : Bool := c.isDigit

/-- Strip matching characters from the left end of a string. -/
def stripLead (p : Char → Bool) (s : List Char) : List Char := s.dropWhile p

/-- Python `str.strip(chars)`: remove the matching characters from both ends. -/
def stripEnds (p : Char → Bool) (s : List Char) : List Char :=
  ((s.dropWhile p).reverse.dropWhile p).reverse

/-- Python `str.strip()` with no argument: strip whitespace from both ends. -/
def pyStrip (s : List Char) : List Char := stripEnds isPySpace s

/- ## Literal matching and `str.replace` -/

/-- If `s` starts with the literal `lit`, return the remainder of `s`. -/
def dropLit : List Char → List Char → Option (List Char)
  | [], s => some s
  | _ :: _, [] => none
  | a :: as, b :: bs => if b = a then dropLit as bs else none

/-- Fuel-indexed scanner for Python `str.replace`: replace every
non-overlapping occurrence of `needle`, scanning left to right. -/
def replaceAllF (needle repl : List Char) : Nat → List Char → List Char
  | 0, s => s
  | _ + 1, [] => []
  | fuel + 1, c :: cs =>
    match dropLit needle (c :: cs) with
    | some rest =>
      if needle.isEmpty then c :: replaceAllF needle repl fuel cs
      else repl ++ replaceAllF needle repl fuel rest
    | none => c :: replaceAllF needle repl fuel cs

/-- Python `s.replace(needle, repl)` for a non-empty needle. -/
def replaceAll (needle repl s : List Char) : List Char :=
  replaceAllF needle repl s.length s

/-- Whether `needle` occurs as a contiguous substring of the second argument. -/
def occursSub (needle : List Char) : List Char → Bool
  | [] => needle.isEmpty
  | c :: cs => (dropLit needle (c :: cs)).isSome || occursSub needle cs

/- ## `escape_xml_attr` -/

/-- `escape_xml_attr`: the five sequential whole-string replacements of the
source, ampersand first. -/
def escape_xml_attr (text : List Char) : List Char :=
  let t1 := replaceAll ['&'] ("&amp;".data) text
  let t2 := replaceAll ['<'] ("&lt;".data) t1
  let t3 := replaceAll ['>'] ("&gt;".data) t2
  let t4 := replaceAll ['\''] ("&apos;".data) t3
  replaceAll ['"'] ("&quot;".data) t4

/-- Per-character entity form: the net effect of `escape_xml_attr` on a single
character. -/
def escChar (c : Char) : List Char :=
  if c = '&' then "&amp;".data
  else if c = '<' then "&lt;".data
  else if c = '>' then "&gt;".data
  else if c = '\'' then "&apos;".data
  else if c = '"' then "&quot;".data
  else [c]

/- ## `create_backup` path computation -/

/-- The backup path computed by `create_backup`:
`file_path.replace(".twb", "_backup_" + timestamp + ".twb")`. -/
def create_backup_path (file_path timestamp : List Char) : List Char :=
  replaceAll (".twb".data) ("_backup_".data ++ timestamp ++ ".twb".data) file_path

/- ## Regex match results and the context-anchored matchers of `safe_replace`

Every pattern of `safe_replace` has the shape
`(anchor-pre)(escaped original)(anchor-suf)` with three capture groups, where
the interior consumed between the two anchors is the original itself (for the
last rule the original padded with matched whitespace).  A match at the head
of the input is recorded as the three consumed segments. -/

structure MatchRes where
  pre : List Char
  mid : List Char
  suf : List Char
deriving DecidableEq

/-- Total number of characters consumed by a match. -/
def matchLen (r : MatchRes) : Nat := r.pre.length + r.mid.length + r.suf.length

/-- Greedy backtracking for a bounded quantifier: try the largest admissible
count first, as the regex engine does for `[^>]*` and `\s*`. -/
def tryGreedy (f : Nat → Option MatchRes) : Nat → Option MatchRes
  | 0 => f 0
  | k + 1 =>
    match f (k + 1) with
    | some r => some r
    | none => tryGreedy f k

/-- First-alternative-wins alternation, as in `(?:worksheet|dashboard)`. -/
def orElseM (a b : Option MatchRes) : Option MatchRes :=
  match a with
  | some r => some r
  | none => b

/-- A rule whose anchors are string literals: `HEAD` ++ original ++ `'`. -/
def litRule (head orig s : List Char) : Option MatchRes :=
  match dropLit head s with
  | none => none
  | some s1 =>
    match dropLit orig s1 with
    | none => none
    | some s2 =>
      match dropLit ['\''] s2 with
      | none => none
      | some _ => some ⟨head, orig, ['\'']⟩

/-- A rule of shape `HEAD[^>]*TAIL` ++ original ++ `'` (`zone`, `window`,
`thumbnail`, `viewpoint`): the gap is a greedy run of non-`>` characters. -/
def gapRule (head tail orig s : List Char) : Option MatchRes :=
  match dropLit head s with
  | none => none
  | some s1 =>
    tryGreedy (fun k =>
      let gap := s1.take k
      if gap.all (· ≠ '>') then
        match dropLit tail (s1.drop k) with
        | none => none
        | some s2 =>
          match dropLit orig s2 with
          | none => none
          | some s3 =>
            match dropLit ['\''] s3 with
            | none => none
            | some _ => some ⟨head ++ gap ++ tail, orig, ['\'']⟩
      else none)
      (s1.takeWhile (· ≠ '>')).length

/-- Rule 5: `(<run[^>]*>)(orig)(</run>)`. -/
def runRule (orig s : List Char) : Option MatchRes :=
  match dropLit ("<run".data) s with
  | none => none
  | some s1 =>
    tryGreedy (fun k =>
      let gap := s1.take k
      if gap.all (· ≠ '>') then
        match dropLit ['>'] (s1.drop k) with
        | none => none
        | some s2 =>
          match dropLit orig s2 with
          | none => none
          | some s3 =>
            match dropLit ("</run>".data) s3 with
            | none => none
            | some _ => some ⟨"<run".data ++ gap ++ ['>'], orig, "</run>".data⟩
      else none)
      (s1.takeWhile (· ≠ '>')).length

/-- Interior of rule 5b after the opening tag: `\s*(orig)\s*(</run>)`; the
whitespace runs are consumed but captured by no group. -/
def runWsTail (orig s2 : List Char) : Option MatchRes :=
  tryGreedy (fun j =>
    let w1 := s2.take j
    if w1.all isPySpace then
      match dropLit orig (s2.drop j) with
      | none => none
      | some s3 =>
        tryGreedy (fun l =>
          let w2 := s3.take l
          if w2.all isPySpace then
            match dropLit ("</run>".data) (s3.drop l) with
            | none => none
            | some _ => some ⟨[], w1 ++ orig ++ w2, "</run>".data⟩
          else none)
          (s3.takeWhile isPySpace).length
    else none)
    (s2.takeWhile isPySpace).length

/-- Rule 5b: `(<run[^>]*>)\s*(orig)\s*(</run>)`. -/
def runWsRule (orig s : List Char) : Option MatchRes :=
  match dropLit ("<run".data) s with
  | none => none
  | some s1 =>
    tryGreedy (fun k =>
      let gap := s1.take k
      if gap.all (· ≠ '>') then
        match dropLit ['>'] (s1.drop k) with
        | none => none
        | some s2 =>
          match runWsTail orig s2 with
          | some r => some ⟨"<run".data ++ gap ++ ['>'], r.mid, r.suf⟩
          | none => none
      else none)
      (s1.takeWhile (· ≠ '>')).length

/-- Rule 3: `(<alias key='[^']+' value=')(orig)(' />)`; the key is a greedy
non-empty run of non-quote characters inside the first group. -/
def aliasRule (orig s : List Char) : Option MatchRes :=
  match dropLit ("<alias key='".data) s with
  | none => none
  | some s1 =>
    let key := s1.takeWhile (· ≠ '\'')
    if key.isEmpty then none
    else
      match dropLit ("' value='".data) (s1.dropWhile (· ≠ '\'')) with
      | none => none
      | some s2 =>
        match dropLit orig s2 with
        | none => none
        | some s3 =>
          match dropLit ("' />".data) s3 with
          | none => none
          | some _ => some ⟨"<alias key='".data ++ key ++ "' value='".data, orig, "' />".data⟩

/-- Rule 1: worksheet/dashboard name definitions. -/
def rule1 (orig s : List Char) : Option MatchRes :=
  orElseM (litRule ("<worksheet name='".data) orig s)
          (litRule ("<dashboard name='".data) orig s)

/-- Rule 1b: dashboard references. -/
def rule1b (orig s : List Char) : Option MatchRes := litRule ("dashboard='".data) orig s

/-- Rule 1c: worksheet references. -/
def rule1c (orig s : List Char) : Option MatchRes := litRule ("worksheet='".data) orig s

/-- Rule 1d: zone name references. -/
def rule1d (orig s : List Char) : Option MatchRes := gapRule ("<zone".data) ("name='".data) orig s

/-- Rule 1e: action target values. -/
def rule1e (orig s : List Char) : Option MatchRes :=
  litRule ("<param name='target' value='".data) orig s

/-- Rule 1f: window names for worksheets and dashboards. -/
def rule1f (orig s : List Char) : Option MatchRes :=
  orElseM (gapRule ("<window class='worksheet'".data) ("name='".data) orig s)
          (gapRule ("<window class='dashboard'".data) ("name='".data) orig s)

/-- Rule 1g: thumbnail names. -/
def rule1g (orig s : List Char) : Option MatchRes := gapRule ("<thumbnail".data) ("name='".data) orig s

/-- Rule 1h: viewpoint names. -/
def rule1h (orig s : List Char) : Option MatchRes := gapRule ("<viewpoint".data) ("name='".data) orig s

/-- Rule 2: captions. -/
def rule2 (orig s : List Char) : Option MatchRes := litRule ("caption='".data) orig s

/-- Rule 4: member aliases. -/
def rule4 (orig s : List Char) : Option MatchRes := litRule ("<member alias='".data) orig s

/-- The thirteen context-anchored rules of `safe_replace`, in source order. -/
def rulesList (orig : List Char) : List (List Char → Option MatchRes) :=
  [rule1 orig, rule1b orig, rule1c orig, rule1d orig, rule1e orig, rule1f orig,
   rule1g orig, rule1h orig, rule2 orig, aliasRule orig, rule4 orig,
   runRule orig, runWsRule orig]

/- ## Replacement templates

`re.subn` receives the replacement string `"\1" + escape_xml_attr(translated)
+ "\3"`.  Because the translated text is spliced between two backslash escapes,
the whole string is processed by the template parser of the regex module:
backslash escapes inside the translated text are interpreted (group
references, octal escapes, string escapes), and an invalid group reference or
a bad escape raises an exception.  The parser below follows the documented
template rules for a pattern with `groups` capture groups. -/

inductive Tok where
  | lit (c : Char)
  | grp (n : Nat)
deriving DecidableEq

/-- Octal digit test. -/
def isOct (c : Char) : Bool := '0' ≤ c && c ≤ '7'

/-- Numeric value of a decimal digit character. -/
def decVal (c : Char) : Nat := c.toNat - '0'.toNat

/-- A group reference is valid when its index does not exceed the number of
capture groups of the pattern. -/
def groupRef (groups n : Nat) : Option Tok :=
  if n ≤ groups then some (Tok.grp n) else none

/-- The string escapes recognised inside a replacement template. -/
def escLetter (c : Char) : Option Char :=
  if c = 'a' then some '\x07'
  else if c = 'b' then some '\x08'
  else if c = 'f' then some '\x0c'
  else if c = 'n' then some '\n'
  else if c = 'r' then some '\x0d'
  else if c = 't' then some '\t'
  else if c = 'v' then some '\x0b'
  else none

/-- A backslash followed by the digit `c`: an octal escape when the number
starts with 0 or is three octal digits long, otherwise a group reference of at
most two digits (an out-of-range reference is an error). -/
def digitEsc (groups : Nat) (c : Char) (r2 : List Char) : Option (Tok × List Char) :=
  if c = '0' then
    match r2 with
    | d2 :: d3 :: r3 =>
      if isOct d2 then
        if isOct d3 then some (Tok.lit (Char.ofNat (decVal d2 * 8 + decVal d3)), r3)
        else some (Tok.lit (Char.ofNat (decVal d2)), d3 :: r3)
      else some (Tok.lit (Char.ofNat 0), r2)
    | [d2] =>
      if isOct d2 then some (Tok.lit (Char.ofNat (decVal d2)), [])
      else some (Tok.lit (Char.ofNat 0), r2)
    | [] => some (Tok.lit (Char.ofNat 0), [])
  else
    match r2 with
    | d2 :: d3 :: r3 =>
      if isOct c && isOct d2 && isOct d3 then
        if (decVal c * 8 + decVal d2) * 8 + decVal d3 ≤ 255 then
          some (Tok.lit (Char.ofNat ((decVal c * 8 + decVal d2) * 8 + decVal d3)), r3)
        else none
      else if isPyDigit d2 then
        (groupRef groups (decVal c * 10 + decVal d2)).map (fun t => (t, d3 :: r3))
      else (groupRef groups (decVal c)).map (fun t => (t, d2 :: d3 :: r3))
    | [d2] =>
      if isPyDigit d2 then (groupRef groups (decVal c * 10 + decVal d2)).map (fun t => (t, []))
      else (groupRef groups (decVal c)).map (fun t => (t, [d2]))
    | [] => (groupRef groups (decVal c)).map (fun t => (t, []))

/-- One backslash escape of a replacement template: the escape character and
what follows it are turned into tokens plus the unconsumed remainder; `none`
is a bad escape or an invalid group reference. -/
def escStep (groups : Nat) (e : Char) (r2 : List Char) : Option (List Tok × List Char) :=
  if e = 'g' then
    match r2 with
    | '<' :: r3 =>
      let gname := r3.takeWhile (· ≠ '>')
      match r3.drop gname.length with
      | '>' :: r4 =>
        if !gname.isEmpty && gname.all isPyDigit then
          (groupRef groups (gname.foldl (fun a c => a * 10 + decVal c) 0)).map
            (fun t => ([t], r4))
        else none
      | _ => none
    | _ => none
  else if e = '\\' then some ([Tok.lit '\\'], r2)
  else if isPyDigit e then (digitEsc groups e r2).map (fun p => ([p.1], p.2))
  else if e.isAlpha then (escLetter e).map (fun ch => ([Tok.lit ch], r2))
  else some ([Tok.lit '\\', Tok.lit e], r2)

/-- Fuel-indexed parser for a replacement template; `none` is the exception
raised by the regex module for a malformed template. -/
def parseTmplF (groups : Nat) : Nat → List Char → Option (List Tok)
  | 0, _ => none
  | _ + 1, [] => some []
  | fuel + 1, c :: rest =>
    if c = '\\' then
      match rest with
      | [] => none
      | e :: r2 =>
        match escStep groups e r2 with
        | some (ts, r3) => (parseTmplF groups fuel r3).map (fun out => ts ++ out)
        | none => none
    else (parseTmplF groups fuel rest).map (Tok.lit c :: ·)

/-- Parse a replacement template. -/
def parseTmpl (groups : Nat) (tmpl : List Char) : Option (List Tok) :=
  parseTmplF groups (tmpl.length + 1) tmpl

/-- The template string `"\1" ++ repl ++ "\3"` built by every rule of
`safe_replace`. -/
def ruleTmpl (repl : List Char) : List Char := '\\' :: '1' :: (repl ++ ['\\', '3'])

/-- Output of one template token for a match: group 1 is the leading anchor,
group 2 the captured original, group 3 the trailing anchor, group 0 the whole
match. -/
def tokOut (r : MatchRes) (orig : List Char) : Tok → List Char
  | Tok.lit c => [c]
  | Tok.grp 0 => r.pre ++ r.mid ++ r.suf
  | Tok.grp 1 => r.pre
  | Tok.grp 2 => orig
  | Tok.grp 3 => r.suf
  | Tok.grp _ => []

/-- Render a parsed template at a match. -/
def renderToks (toks : List Tok) (r : MatchRes) (orig : List Char) : List Char :=
  (toks.map (tokOut r orig)).flatten

/- ## `re.subn` -/

/-- Fuel-indexed scanner for `re.subn`: find the leftmost match, emit the
rendered replacement, continue after the match; characters before a match are
copied unchanged.  All rule patterns consume at least one character on a
match, so the zero-length guard is never taken for them. -/
def subnF (m : List Char → Option MatchRes) (out : MatchRes → List Char) :
    Nat → List Char → List Char × Nat
  | 0, s => (s, 0)
  | _ + 1, [] => ([], 0)
  | fuel + 1, c :: cs =>
    match m (c :: cs) with
    | some r =>
      if 0 < matchLen r then
        let p := subnF m out fuel ((c :: cs).drop (matchLen r))
        (out r ++ p.1, p.2 + 1)
      else
        let p := subnF m out fuel cs
        (c :: p.1, p.2)
    | none =>
      let p := subnF m out fuel cs
      (c :: p.1, p.2)

/-- `re.subn(pattern, repl, s)` for one rule pattern. -/
def subn (m : List Char → Option MatchRes) (out : MatchRes → List Char) (s : List Char) :
    List Char × Nat :=
  subnF m out s.length s

/- ## `safe_replace` -/

/-- One substitution pass of `safe_replace`: the document is rewritten and the
match count accumulated. -/
def passStep (orig : List Char) (toks : List Tok) (acc : List Char × Nat)
    (m : List Char → Option MatchRes) : List Char × Nat :=
  let p := subn m (fun r => renderToks toks r orig) acc.1
  (p.1, acc.2 + p.2)

/-- `safe_replace(content, original, translated)`: the zero-effect guard, then
the thirteen context-anchored passes in source order, all with the replacement
template `"\1" + escape_xml_attr(translated) + "\3"`; a malformed template is
the exception `re.subn` raises on its first use. -/
def safe_replace (content original translated : List Char) :
    Except (List Char) (List Char × Nat) :=
  if original = [] || translated = [] || original = translated then
    Except.ok (content, 0)
  else
    match parseTmpl 3 (ruleTmpl (escape_xml_attr translated)) with
    | none => Except.error ("re.error: bad replacement template".data)
    | some toks => Except.ok ((rulesList original).foldl (passStep original toks) (content, 0))

/- ## `translate_file`: ordering of the substitution passes -/

/-- The sort applied in `translate_file` before the substitution passes:
`sorted(all_translations.items(), key=lambda x: len(x[0]), reverse=True)`, a
stable sort by non-increasing length of the original string. -/
def sortedTranslations (translations : List (List Char × List Char)) :
    List (List Char × List Char) :=
  translations.mergeSort (fun a b => decide (b.1.length ≤ a.1.length))

/-- The application phase of `translate_file`: fold `safe_replace` over the
sorted pairs, accumulating the replacement count; an exception propagates. -/
def applyTranslations (content : List Char) (translations : List (List Char × List Char)) :
    Except (List Char) (List Char × Nat) :=
  (sortedTranslations translations).foldlM
    (fun acc p => (safe_replace acc.1 p.1 p.2).map (fun q => (q.1, acc.2 + q.2)))
    (content, 0)

/- ## `translate_with_claude`: prompt, reply parsing, failure policy -/

/-- The numbered candidate list embedded in the prompt. -/
def numberedList (text_items : List (List Char)) : List Char :=
  List.intercalate ['\n']
    (text_items.enum.map (fun p => (toString (p.1 + 1)).data ++ ". ".data ++ p.2))

/-- The prompt string built for one batch. -/
def buildPrompt (text_items : List (List Char)) (target_language context : List Char) :
    List Char :=
  "Translate the following texts to ".data ++ target_language ++
  ".\n\nIMPORTANT RULES:\n1. Keep place names and company names as they are (e.g., \"Viljandimaa\", \"Tartu\", \"TK\", \"ÜTK\")\n2. Preserve Tableau technical terminology exactly as it should be in ".data ++
  target_language ++
  "\n3. Only translate the user-facing labels and descriptions\n4. Do NOT include any special characters that need XML escaping (use plain quotes, not &quot;)\n5. Return ONLY a numbered list with translations, one per line\n6. Keep the same order as the input\n\nContext: ".data ++
  context ++
  "\n\nTexts to translate:\n".data ++ numberedList text_items ++
  "\n\nReturn format (plain text only, no special XML characters):\n1. [translation of first item]\n2. [translation of second item]\netc.\n".data

/-- Match one reply line against `^\d+\.\s*(.*)`: a non-empty run of digits, a
period, a greedy run of whitespace, then the captured rest of the line. -/
def matchNum (line : List Char) : Option (List Char) :=
  let ds := line.takeWhile isPyDigit
  if ds.isEmpty then none
  else
    match line.drop ds.length with
    | '.' :: rest => some (rest.dropWhile isPySpace)
    | _ => none

/-- Clean-up applied to a parsed translation:
`.strip()`, then `.strip('"')`, then `.strip("'")`. -/
def storeVal (g : List Char) : List Char :=
  stripEnds (fun c => c = '\'') (stripEnds (fun c => c = '"') (pyStrip g))

/-- Assignment into a Python dict: an existing key is updated in place, a new
key is appended. -/
def dictInsert (k v : List Char) (d : List (List Char × List Char)) :
    List (List Char × List Char) :=
  if d.any (fun e => decide (e.1 = k)) then
    d.map (fun e => if e.1 = k then (k, v) else e)
  else d ++ [(k, v)]

/-- The reply-parsing loop: line `i` that matches the numbered pattern stores a
translation for `text_items[i]`, positionally. -/
def parseLoop (text_items : List (List Char)) :
    List (List Char) → Nat → List (List Char × List Char) → List (List Char × List Char)
  | [], _, d => d
  | line :: rest, i, d =>
    let d' :=
      match matchNum line with
      | some g =>
        if h : i < text_items.length then dictInsert (text_items.get ⟨i, h⟩) (storeVal g) d
        else d
      | none => d
    parseLoop text_items rest (i + 1) d'

/-- Parse a service reply: strip it, split on newlines, and run the loop. -/
def parseTranslations (response_text : List Char) (text_items : List (List Char)) :
    List (List Char × List Char) :=
  parseLoop text_items ((pyStrip response_text).splitOn '\n') 0 []

/-- An exception raised by the service request (network failure, malformed
response object, and so on). -/
structure PyErr where
  msg : List Char

/-- `translate_with_claude`, with the external service as an oracle from the
prompt to either an exception or the reply text.  The second component records
the requests actually issued.  An empty batch returns at once; a failing
request is caught and yields the empty mapping. -/
def translate_with_claude (svc : List Char → Except PyErr (List Char))
    (text_items : List (List Char)) (target_language context : List Char) :
    List (List Char × List Char) × List (List Char) :=
  if text_items.isEmpty then ([], [])
  else
    let prompt := buildPrompt text_items target_language context
    match svc prompt with
    | Except.error _ => ([], [prompt])
    | Except.ok response_text => (parseTranslations response_text text_items, [prompt])

/- ## `extract_translatable_texts`: the captions category -/

/-- Match `caption='([^']+)'` at the head of the input, returning the captured
value and the total match length. -/
def capMatch (s : List Char) : Option (List Char × Nat) :=
  match dropLit ("caption='".data) s with
  | none => none
  | some s1 =>
    let v := s1.takeWhile (· ≠ '\'')
    if v.isEmpty then none
    else
      match s1.drop v.length with
      | '\'' :: _ => some (v, "caption='".length + v.length + 1)
      | _ => none

/-- Fuel-indexed scanner for `re.findall(r"caption='([^']+)'", content)`. -/
def findallCapsF : Nat → List Char → List (List Char)
  | 0, _ => []
  | _ + 1, [] => []
  | fuel + 1, c :: cs =>
    match capMatch (c :: cs) with
    | some (v, len) =>
      if 0 < len then v :: findallCapsF fuel ((c :: cs).drop len)
      else findallCapsF fuel cs
    | none => findallCapsF fuel cs

/-- All captured caption values, in scan order. -/
def findallCaptions (content : List Char) : List (List Char) :=
  findallCapsF content.length content

/-- Lowercase-or-underscore characters, the class `[a-z_]`. -/
def isLowerUnd (c : Char) : Bool := ('a' ≤ c && c ≤ 'z') || c = '_'

/-- Whether `re.match` with the pattern `caret [a-z_]+ dollar` accepts the
value: the whole value is lowercase letters and underscores, except that the
dollar anchor also matches just before a single newline at the very end of the
string. -/
def matchesLowerIdent (v : List Char) : Bool :=
  let core := match v.getLast? with
    | some '\n' => v.dropLast
    | _ => v
  !core.isEmpty && core.all isLowerUnd

/-- The filter of the captions category in `extract_translatable_texts`. -/
def keepCaption (v : List Char) : Bool :=
  !matchesLowerIdent v && !v.contains '[' && !(v.head? == some '.') && !v.contains '&'

/-- The extracted captions category: the deduplicated filtered caption values
(Python builds `list(set(...))`; the list below carries the same members,
without duplicates). -/
def extractCaptions (content : List Char) : List (List Char) :=
  ((findallCaptions content).filter keepCaption).dedup

/-- Modelled from the claim wording of C6: a value that is a pure
lowercase-and-underscore technical identifier. -/
def pureLowerUnderscore (v : List Char) : Bool := !v.isEmpty && v.all isLowerUnd

/-- Head-is-a-decimal-digit test, used to state when a translated string keeps
the replacement template of `safe_replace` well formed. -/
def headIsDigit (s : List Char) : Bool :=
  match s with
  | c :: _ => isPyDigit c
  | [] => false

/- ## Frame decomposition for C1 -/

/-- A piece of a single-pass decomposition: either one character kept
unchanged, or one substituted match, recorded as its two anchors and the
whitespace that padded the original inside the consumed interior. -/
inductive Piece where
  | keep (c : Char)
  | subst (pre w1 w2 suf : List Char)

/-- The characters of the input document covered by a piece, for the pair
whose original is `o`. -/
def pieceIn (o : List Char) : Piece → List Char
  | Piece.keep c => [c]
  | Piece.subst pre w1 w2 suf => pre ++ (w1 ++ o ++ w2) ++ suf

/-- The characters the piece contributes to the output document when the
substituted spans are rewritten to `repl`. -/
def pieceOut (repl : List Char) : Piece → List Char
  | Piece.keep c => [c]
  | Piece.subst pre _ _ suf => pre ++ repl ++ suf

/-- One substitution pass relates `d` to `d'` while preserving every byte
outside the substituted spans: the document splits into pieces; kept
characters and the anchors of every match reappear verbatim, and only the
whitespace-padded occurrences of `o` between the anchors are rewritten
(the padding is non-empty only for the whitespace-tolerant run rule). -/
def FrameStep (o repl d d' : List Char) : Prop :=
  ∃ ps : List Piece,
    d = (ps.map (pieceIn o)).flatten ∧
    d' = (ps.map (pieceOut repl)).flatten ∧
    ∀ pre w1 w2 suf, Piece.subst pre w1 w2 suf ∈ ps →
      (∀ c ∈ w1, isPySpace c = true) ∧ (∀ c ∈ w2, isPySpace c = true)

/-- Well-behaved matcher for the pair whose original is `o`: a reported match
decomposes the input, the leading anchor is non-empty, and the consumed
interior is the original padded with whitespace. -/
def MGood (o : List Char) (m : List Char → Option MatchRes) : Prop :=
  ∀ s r, m s = some r →
    (∃ rest, s = r.pre ++ r.mid ++ r.suf ++ rest) ∧ r.pre ≠ [] ∧
    ∃ w1 w2, (∀ c ∈ w1, isPySpace c = true) ∧ (∀ c ∈ w2, isPySpace c = true) ∧
      r.mid = w1 ++ o ++ w2

/- # Theorems -/

/- ## Generic helper lemmas -/

theorem dropLit_sound : ∀ (lit s t : List Char), dropLit lit s = some t → s = lit ++ t := by
  intro lit
  induction lit with
  | nil =>
    intro s t h
    simp only [dropLit, Option.some.injEq] at h
    simp [h]
  | cons a as ih =>
    intro s t h
    cases s with
    | nil => simp [dropLit] at h
    | cons b bs =>
      simp only [dropLit] at h
      by_cases hba : b = a
      · rw [if_pos hba] at h
        have := ih bs t h
        simp [this, hba]
      · rw [if_neg hba] at h
        cases h

theorem tryGreedy_some (f : Nat → Option MatchRes) :
    ∀ n r, tryGreedy f n = some r → ∃ k, k ≤ n ∧ f k = some r := by
  intro n
  induction n with
  | zero => intro r h; exact ⟨0, Nat.le_refl 0, h⟩
  | succ n ih =>
    intro r h
    simp only [tryGreedy] at h
    cases hf : f (n + 1) with
    | some r2 => rw [hf] at h; exact ⟨n + 1, Nat.le_refl _, by rw [hf]; exact h⟩
    | none =>
      rw [hf] at h
      obtain ⟨k, hk, hfk⟩ := ih r h
      exact ⟨k, Nat.le_succ_of_le hk, hfk⟩

theorem orElseM_some (a b : Option MatchRes) (r : MatchRes) (h : orElseM a b = some r) :
    a = some r ∨ b = some r := by
  cases a with
  | some r2 => exact Or.inl h
  | none => exact Or.inr h

/- ## C9, C5: gateway guard and failure policy -/

/-- C9: called with an empty list of text items, `translate_with_claude`
returns the empty mapping immediately, without building a prompt or issuing
any request to the external service. -/
theorem translate_with_claude_empty_batch (svc : List Char → Except PyErr (List Char))
    (target_language context : List Char) :
    translate_with_claude svc [] target_language context = ([], []) := rfl

/-- C5: if the service request raises an exception, the batch returns the
empty mapping instead of propagating the exception. -/
theorem translate_with_claude_error_empty (svc : List Char → Except PyErr (List Char))
    (text_items : List (List Char)) (target_language context : List Char) (e : PyErr)
    (h : svc (buildPrompt text_items target_language context) = Except.error e) :
    (translate_with_claude svc text_items target_language context).1 = [] := by
  cases he : text_items.isEmpty with
  | true => simp [translate_with_claude, he]
  | false => simp [translate_with_claude, he, h]

/-- Witness for C5 at a concrete failing service. -/
theorem translate_with_claude_error_empty_w :
    ((fun _ : List Char => (Except.error ⟨"boom".data⟩ : Except PyErr (List Char)))
        (buildPrompt ["tere".data] ("English".data) ("captions".data)) =
      Except.error ⟨"boom".data⟩) ∧
    (translate_with_claude (fun _ => Except.error ⟨"boom".data⟩)
        ["tere".data] ("English".data) ("captions".data)).1 = [] :=
  ⟨rfl, translate_with_claude_error_empty _ _ _ _ _ rfl⟩

/- ## C2: the zero-effect guard of `safe_replace` -/

/-- C2: when the original equals the translation, or either is empty,
`safe_replace` returns the document unchanged with a replacement count of
zero. -/
theorem safe_replace_guard (content original translated : List Char)
    (h : original = translated ∨ original = [] ∨ translated = []) :
    safe_replace content original translated = Except.ok (content, 0) := by
  unfold safe_replace
  rcases h with h | h | h <;> simp [h]

/-- Witness for C2 at a concrete no-op pair. -/
theorem safe_replace_guard_w :
    ("x".data = "x".data ∨ "x".data = ([] : List Char) ∨ "x".data = ([] : List Char)) ∧
    safe_replace ("caption='x'".data) ("x".data) ("x".data) =
      Except.ok ("caption='x'".data, 0) :=
  ⟨Or.inl rfl, safe_replace_guard _ _ _ (Or.inl rfl)⟩

/- ## C10: the backup path -/

theorem replaceAllF_no_occ (needle repl : List Char) :
    ∀ fuel s, occursSub needle s = false → replaceAllF needle repl fuel s = s := by
  intro fuel
  induction fuel with
  | zero => intro s _; rfl
  | succ n ih =>
    intro s h
    cases s with
    | nil => rfl
    | cons c cs =>
      simp only [occursSub, Bool.or_eq_false_iff] at h
      obtain ⟨h1, h2⟩ := h
      simp only [replaceAllF]
      cases hd : dropLit needle (c :: cs) with
      | some rest => rw [hd] at h1; simp at h1
      | none =>
        show c :: replaceAllF needle repl n cs = c :: cs
        rw [ih cs h2]

theorem replaceAll_no_occ (needle repl s : List Char) (h : occursSub needle s = false) :
    replaceAll needle repl s = s :=
  replaceAllF_no_occ needle repl s.length s h

/-- C10: `create_backup` computes the backup path by replacing every
occurrence of `.twb` in the input path with the backup-tagged name; a path
with no `.twb` substring is returned unchanged, so the backup write then
targets the original file.  The second conjunct shows a path with two
occurrences having both rewritten. -/
theorem create_backup_path_spec :
    (∀ p ts, occursSub (".twb".data) p = false → create_backup_path p ts = p) ∧
    (∀ ts, create_backup_path ['a', '.', 't', 'w', 'b', 'b', '.', 't', 'w', 'b'] ts =
      'a' :: (("_backup_".data ++ ts ++ ".twb".data) ++
        'b' :: ("_backup_".data ++ ts ++ ".twb".data))) := by
  constructor
  · intro p ts h
    exact replaceAll_no_occ _ _ _ h
  · intro ts
    simp [create_backup_path, replaceAll, replaceAllF, dropLit]

/-- Witness for C10 on a path containing no `.twb`. -/
theorem create_backup_path_spec_w :
    occursSub (".twb".data) ("report.xml".data) = false ∧
    create_backup_path ("report.xml".data) ("20240101_000000".data) = "report.xml".data :=
  ⟨by decide, create_backup_path_spec.1 _ _ (by decide)⟩

/- ## C7: the escaper -/

theorem replaceAll_one_cons (a : Char) (r : List Char) (c : Char) (s : List Char) :
    replaceAll [a] r (c :: s) = (if c = a then r else [c]) ++ replaceAll [a] r s := by
  simp only [replaceAll, List.length_cons, replaceAllF, dropLit]
  by_cases h : c = a
  · simp [h]
  · simp [h]

theorem replaceAll_one_nil (a : Char) (r : List Char) : replaceAll [a] r [] = [] := rfl

theorem replaceAll_one_app (a : Char) (r : List Char) :
    ∀ x y : List Char, replaceAll [a] r (x ++ y) = replaceAll [a] r x ++ replaceAll [a] r y := by
  intro x
  induction x with
  | nil => intro y; simp [replaceAll_one_nil]
  | cons c cs ih =>
    intro y
    rw [List.cons_append, replaceAll_one_cons, replaceAll_one_cons, ih, List.append_assoc]

theorem replaceAll_one_nmem (a : Char) (r : List Char) :
    ∀ x : List Char, a ∉ x → replaceAll [a] r x = x := by
  intro x
  induction x with
  | nil => intro _; rfl
  | cons c cs ih =>
    intro h
    simp only [List.mem_cons, not_or] at h
    rw [replaceAll_one_cons, if_neg (fun e => h.1 e.symm), ih h.2]
    rfl

theorem escape_xml_attr_cons (c : Char) (s : List Char) :
    escape_xml_attr (c :: s) = escChar c ++ escape_xml_attr s := by
  by_cases h1 : c = '&'
  · subst h1
    simp only [escape_xml_attr, replaceAll_one_cons, replaceAll_one_app, escChar]
    congr 1
  · by_cases h2 : c = '<'
    · subst h2
      simp only [escape_xml_attr, replaceAll_one_cons, replaceAll_one_app, escChar]
      congr 1
    · by_cases h3 : c = '>'
      · subst h3
        simp only [escape_xml_attr, replaceAll_one_cons, replaceAll_one_app, escChar]
        congr 1
      · by_cases h4 : c = '\''
        · subst h4
          simp only [escape_xml_attr, replaceAll_one_cons, replaceAll_one_app, escChar]
          congr 1
        · by_cases h5 : c = '"'
          · subst h5
            simp only [escape_xml_attr, replaceAll_one_cons, replaceAll_one_app, escChar]
            congr 1
          · simp only [escape_xml_attr, replaceAll_one_cons, replaceAll_one_app]
            rw [if_neg h1]
            rw [replaceAll_one_nmem _ _ [c]
              (by simp only [List.mem_singleton]; exact fun e => h2 e.symm)]
            rw [replaceAll_one_nmem _ _ [c]
              (by simp only [List.mem_singleton]; exact fun e => h3 e.symm)]
            rw [replaceAll_one_nmem _ _ [c]
              (by simp only [List.mem_singleton]; exact fun e => h4 e.symm)]
            rw [replaceAll_one_nmem _ _ [c]
              (by simp only [List.mem_singleton]; exact fun e => h5 e.symm)]
            rw [escChar, if_neg h1, if_neg h2, if_neg h3, if_neg h4, if_neg h5]

theorem escape_xml_attr_flat (s : List Char) :
    escape_xml_attr s = (s.map escChar).flatten := by
  induction s with
  | nil => rfl
  | cons c s ih => rw [escape_xml_attr_cons, ih]; simp

/-- C7: `escape_xml_attr` is the pure total function that escapes exactly the
five reserved markup characters to their entity forms, character by character,
with no double escaping (the sequential passes with the ampersand first have
exactly this pointwise effect) and with every other character unchanged. -/
theorem escape_xml_attr_pointwise (s : List Char) :
    escape_xml_attr s = (s.map escChar).flatten := escape_xml_attr_flat s

/- ## C3: descending-length ordering of the substitution passes -/

/-- C3: `translate_file` sorts the accumulated translation pairs by descending
length of the original string before applying them, so in the sorted pass list
a pair with a longer original is processed no later than one with a shorter
original; the sorted list is a permutation of the accumulated pairs. -/
theorem sortedTranslations_desc (l : List (List Char × List Char)) (i j : Nat)
    (hij : i ≤ j) (hj : j < (sortedTranslations l).length) :
    List.Perm (sortedTranslations l) l ∧
    ((sortedTranslations l).getD j ([], [])).1.length ≤
      ((sortedTranslations l).getD i ([], [])).1.length := by
  have hperm : List.Perm (sortedTranslations l) l := List.mergeSort_perm l _
  refine ⟨hperm, ?_⟩
  have hi : i < (sortedTranslations l).length := Nat.lt_of_le_of_lt hij hj
  rcases Nat.eq_or_lt_of_le hij with rfl | hlt
  · exact Nat.le_refl _
  · have hp :=
      @List.sorted_mergeSort (List Char × List Char)
        (fun a b => decide (b.1.length ≤ a.1.length))
        (by intro a b c hab hbc; simp only [decide_eq_true_eq] at *; omega)
        (by intro a b; simp only [Bool.or_eq_true, decide_eq_true_eq]; omega)
        l
    have := List.pairwise_iff_get.mp hp ⟨i, by simpa [sortedTranslations] using hi⟩
      ⟨j, by simpa [sortedTranslations] using hj⟩ hlt
    simp only [decide_eq_true_eq] at this
    rw [List.getD_eq_getElem _ _ hj, List.getD_eq_getElem _ _ hi]
    simpa [sortedTranslations] using this

/-- Witness for C3 on a concrete two-pair map. -/
theorem sortedTranslations_desc_w :
    (0 : Nat) ≤ 1 ∧
    1 < (sortedTranslations [("a".data, "x".data), ("bb".data, "y".data)]).length ∧
    List.Perm (sortedTranslations [("a".data, "x".data), ("bb".data, "y".data)])
      [("a".data, "x".data), ("bb".data, "y".data)] ∧
    ((sortedTranslations [("a".data, "x".data), ("bb".data, "y".data)]).getD 1
        ([], [])).1.length ≤
      ((sortedTranslations [("a".data, "x".data), ("bb".data, "y".data)]).getD 0
        ([], [])).1.length := by
  have hlen : 1 < (sortedTranslations [("a".data, "x".data), ("bb".data, "y".data)]).length := by
    simp [sortedTranslations]
  have h := sortedTranslations_desc [("a".data, "x".data), ("bb".data, "y".data)] 0 1
    (Nat.zero_le 1) hlen
  exact ⟨Nat.zero_le 1, hlen, h.1, h.2⟩

/- ## Reply parsing: C4 and C8 -/

theorem head?_dropWhile_false (p : Char → Bool) (l : List Char) (c : Char)
    (h : (l.dropWhile p).head? = some c) : p c = false := by
  have := List.head?_dropWhile_not p l
  rw [h] at this
  exact this

theorem stripEnds_getLast (p : Char → Bool) (s : List Char) (c : Char)
    (h : (stripEnds p s).getLast? = some c) : p c = false := by
  unfold stripEnds at h
  rw [List.getLast?_reverse] at h
  exact head?_dropWhile_false _ _ _ h

theorem stripEnds_head (p : Char → Bool) (s : List Char) (c : Char)
    (h : (stripEnds p s).head? = some c) : p c = false := by
  have ht : s.dropWhile p =
      ((s.dropWhile p).reverse.dropWhile p).reverse ++
        ((s.dropWhile p).reverse.takeWhile p).reverse := by
    rw [← List.reverse_append, List.takeWhile_append_dropWhile, List.reverse_reverse]
  have hhead : (s.dropWhile p).head? = some c := by
    rw [ht]
    have h' : ((s.dropWhile p).reverse.dropWhile p).reverse.head? = some c := h
    simp [List.head?_append, h']
  exact head?_dropWhile_false _ _ _ hhead

theorem mem_dictInsert (k v : List Char) (d : List (List Char × List Char))
    (e : List Char × List Char) (h : e ∈ dictInsert k v d) : e ∈ d ∨ e = (k, v) := by
  unfold dictInsert at h
  by_cases hany : d.any (fun e => decide (e.1 = k))
  · rw [if_pos hany] at h
    rw [List.mem_map] at h
    obtain ⟨e', he', hfe⟩ := h
    by_cases hek : e'.1 = k
    · rw [if_pos hek] at hfe
      right; exact hfe.symm
    · rw [if_neg hek] at hfe
      left; exact hfe ▸ he'
  · rw [if_neg hany] at h
    rw [List.mem_append] at h
    rcases h with h | h
    · left; exact h
    · right; simpa using h

theorem hasKey_dictInsert (k v k' : List Char) (d : List (List Char × List Char)) :
    (∃ w, (k', w) ∈ dictInsert k v d) ↔ k' = k ∨ ∃ w, (k', w) ∈ d := by
  unfold dictInsert
  by_cases hany : d.any (fun e => decide (e.1 = k))
  · rw [if_pos hany]
    have hany' := hany
    simp only [List.any_eq_true, decide_eq_true_eq] at hany'
    obtain ⟨e0, he0, hk0⟩ := hany'
    constructor
    · rintro ⟨w, hw⟩
      rw [List.mem_map] at hw
      obtain ⟨e, he, hfe⟩ := hw
      by_cases hek : e.1 = k
      · rw [if_pos hek] at hfe
        left
        have : (k, v) = (k', w) := hfe
        exact (Prod.mk.injEq _ _ _ _ ▸ this).1.symm
      · rw [if_neg hek] at hfe
        right; exact ⟨w, hfe ▸ he⟩
    · rintro (rfl | ⟨w, hw⟩)
      · exact ⟨v, List.mem_map.mpr ⟨e0, he0, by rw [if_pos hk0]⟩⟩
      · by_cases hek : k' = k
        · subst hek
          exact ⟨v, List.mem_map.mpr ⟨e0, he0, by rw [if_pos hk0]⟩⟩
        · exact ⟨w, List.mem_map.mpr ⟨(k', w), hw, by rw [if_neg hek]⟩⟩
  · rw [if_neg hany]
    constructor
    · rintro ⟨w, hw⟩
      rw [List.mem_append] at hw
      rcases hw with hw | hw
      · right; exact ⟨w, hw⟩
      · left
        simp only [List.mem_singleton, Prod.mk.injEq] at hw
        exact hw.1
    · rintro (rfl | ⟨w, hw⟩)
      · exact ⟨v, by simp⟩
      · exact ⟨w, by simp [hw]⟩

theorem cons_index_iff (line : List Char) (rest : List (List Char))
    (items : List (List Char)) (i : Nat) (k : List Char) :
    (∃ j l2, (line :: rest)[j]? = some l2 ∧ (matchNum l2).isSome = true ∧
        items[i + j]? = some k) ↔
      ((matchNum line).isSome = true ∧ items[i]? = some k) ∨
      (∃ j l2, rest[j]? = some l2 ∧ (matchNum l2).isSome = true ∧
        items[(i + 1) + j]? = some k) := by
  constructor
  · rintro ⟨j, l2, hj, hm2, hk⟩
    cases j with
    | zero =>
      left
      simp only [List.getElem?_cons_zero, Option.some.injEq] at hj
      subst hj
      exact ⟨hm2, by simpa using hk⟩
    | succ j' =>
      right
      refine ⟨j', l2, by simpa using hj, hm2, ?_⟩
      have harith : i + (j' + 1) = (i + 1) + j' := by omega
      rwa [harith] at hk
  · rintro (⟨hm2, hk⟩ | ⟨j, l2, hj, hm2, hk⟩)
    · exact ⟨0, line, by simp, hm2, by simpa using hk⟩
    · refine ⟨j + 1, l2, by simpa using hj, hm2, ?_⟩
      have harith : i + (j + 1) = (i + 1) + j := by omega
      rw [harith]; exact hk

theorem parseLoop_key (items : List (List Char)) :
    ∀ (ls : List (List Char)) (i : Nat) (d : List (List Char × List Char)) (k : List Char),
      (∃ v, (k, v) ∈ parseLoop items ls i d) ↔
        (∃ v, (k, v) ∈ d) ∨
        ∃ j line, ls[j]? = some line ∧ (matchNum line).isSome = true ∧
          items[i + j]? = some k := by
  intro ls
  induction ls with
  | nil =>
    intro i d k
    simp [parseLoop]
  | cons line rest ih =>
    intro i d k
    rw [cons_index_iff]
    cases hm : matchNum line with
    | none =>
      have hstep : parseLoop items (line :: rest) i d = parseLoop items rest (i + 1) d := by
        simp [parseLoop, hm]
      rw [hstep, ih]
      simp [hm]
    | some g =>
      by_cases hi : i < items.length
      · have hstep : parseLoop items (line :: rest) i d =
            parseLoop items rest (i + 1) (dictInsert (items.get ⟨i, hi⟩) (storeVal g) d) := by
          simp [parseLoop, hm, hi]
        rw [hstep, ih, hasKey_dictInsert]
        have hk0 : items[i]? = some (items.get ⟨i, hi⟩) := by
          simp [List.getElem?_eq_getElem hi]
        constructor
        · rintro ((rfl | hd) | hrest)
          · exact Or.inr (Or.inl ⟨by simp, hk0⟩)
          · exact Or.inl hd
          · exact Or.inr (Or.inr hrest)
        · rintro (hd | (⟨_, hk⟩ | hrest))
          · exact Or.inl (Or.inr hd)
          · left; left
            rw [hk0] at hk
            exact (Option.some.injEq _ _ ▸ hk).symm
          · exact Or.inr hrest
      · have hstep : parseLoop items (line :: rest) i d = parseLoop items rest (i + 1) d := by
          simp [parseLoop, hm, hi]
        rw [hstep, ih]
        have hk0 : items[i]? = none := by
          simp [List.getElem?_eq_none (Nat.le_of_not_lt hi)]
        simp [hk0]

/-- C4: the reply parsing of `translate_with_claude` associates matching lines
with input items purely by line position: the mapping has an entry with key
`k` exactly when some position `j` holds both a matching line of the stripped,
newline-split reply and the input item `k`; consequently every key of the
mapping is one of the input items. -/
theorem parseTranslations_keys (response_text : List Char) (text_items : List (List Char))
    (k : List Char) :
    ((∃ v, (k, v) ∈ parseTranslations response_text text_items) ↔
      ∃ (j : Nat) (line : List Char),
        ((pyStrip response_text).splitOn '\n')[j]? = some line ∧
        (matchNum line).isSome = true ∧ text_items[j]? = some k) ∧
    (∀ v, (k, v) ∈ parseTranslations response_text text_items → k ∈ text_items) := by
  have h := parseLoop_key text_items ((pyStrip response_text).splitOn '\n') 0 [] k
  simp only [List.not_mem_nil, exists_false, false_or, Nat.zero_add] at h
  constructor
  · exact h
  · intro v hv
    have h2 : ∃ v, (k, v) ∈ parseTranslations response_text text_items := ⟨v, hv⟩
    unfold parseTranslations at h2
    rw [h] at h2
    obtain ⟨j, line, _, _, hk⟩ := h2
    exact List.getElem?_mem hk

/-- Witness for C4 on a concrete reply. -/
theorem parseTranslations_keys_w :
    (("a".data, "tere".data) ∈ parseTranslations ("1. 'tere'".data) ["a".data]) ∧
    "a".data ∈ ["a".data] :=
  ⟨by decide,
    (parseTranslations_keys ("1. 'tere'".data) ["a".data] ("a".data)).2 ("tere".data)
      (by decide)⟩

theorem parseLoop_val (items : List (List Char)) :
    ∀ (ls : List (List Char)) (i : Nat) (d : List (List Char × List Char))
      (k v : List Char), (k, v) ∈ parseLoop items ls i d →
      (k, v) ∈ d ∨ ∃ line ∈ ls, ∃ g, matchNum line = some g ∧ v = storeVal g := by
  intro ls
  induction ls with
  | nil =>
    intro i d k v h
    left
    simpa [parseLoop] using h
  | cons line rest ih =>
    intro i d k v h
    simp only [parseLoop] at h
    rcases ih _ _ _ _ h with hd' | ⟨l2, hl2, g, hg, hv⟩
    · cases hm : matchNum line with
      | none =>
        rw [hm] at hd'
        exact Or.inl hd'
      | some g =>
        rw [hm] at hd'
        have hd2 : (k, v) ∈
            (if h : i < items.length then
              dictInsert (items.get ⟨i, h⟩) (storeVal g) d else d) := hd'
        by_cases hi : i < items.length
        · rw [dif_pos hi] at hd2
          rcases mem_dictInsert _ _ _ _ hd2 with h1 | h1
          · exact Or.inl h1
          · right
            refine ⟨line, by simp, g, hm, ?_⟩
            exact (Prod.ext_iff.mp h1).2
        · rw [dif_neg hi] at hd2
          exact Or.inl hd2
    · right
      exact ⟨l2, by simp [hl2], g, hg, hv⟩

/-- C8 (amended): a stored translation is the matched remainder of its line
with surrounding whitespace removed, then all leading and trailing double
quotes stripped, then all leading and trailing single quotes stripped; hence
no stored translation begins or ends with a single quote (a double quote can
remain when it was nested inside single quotes). -/
theorem parseTranslations_value (response_text : List Char) (text_items : List (List Char))
    (k v : List Char) (h : (k, v) ∈ parseTranslations response_text text_items) :
    (∃ line ∈ (pyStrip response_text).splitOn '\n',
      ∃ g, matchNum line = some g ∧ v = storeVal g) ∧
    v.head? ≠ some '\'' ∧ v.getLast? ≠ some '\'' := by
  have h2 := parseLoop_val text_items _ 0 [] k v h
  simp only [List.not_mem_nil, false_or] at h2
  obtain ⟨line, hl, g, hg, hv⟩ := h2
  refine ⟨⟨line, hl, g, hg, hv⟩, ?_, ?_⟩
  · intro hh
    rw [hv] at hh
    have := stripEnds_head _ _ _ hh
    simp at this
  · intro hh
    rw [hv] at hh
    have := stripEnds_getLast _ _ _ hh
    simp at this

/-- Witness for C8 (amended) on a concrete reply. -/
theorem parseTranslations_value_w :
    (("a".data, "tere".data) ∈ parseTranslations ("1. 'tere'".data) ["a".data]) ∧
    ((∃ line ∈ (pyStrip ("1. 'tere'".data)).splitOn '\n',
        ∃ g, matchNum line = some g ∧ "tere".data = storeVal g) ∧
      ("tere".data).head? ≠ some '\'' ∧ ("tere".data).getLast? ≠ some '\'') :=
  ⟨by decide,
    parseTranslations_value ("1. 'tere'".data) ["a".data] ("a".data) ("tere".data)
      (by decide)⟩

/-- Counterexample for C8 as stated: the reply line `1. '"x"'` stores the
translation `"x"`, which begins (and ends) with a double quote, because the
code strips double quotes before single quotes. -/
theorem parseTranslations_value_cex :
    parseTranslations ("1. '\"x\"'".data) ["a".data] = [("a".data, "\"x\"".data)] ∧
    ("\"x\"".data).head? = some '"' := by
  exact ⟨by decide, by decide⟩

/- ## C6: the captions category -/

/-- C6 (amended): a value is in the extracted captions exactly when it is a
captured caption value and survives the four filters — it is not accepted by
the lowercase-identifier pattern (pure lowercase-and-underscore, tolerating a
single trailing newline through the dollar anchor), does not contain `[`,
does not begin with a period, and does not contain an ampersand; the
collection is duplicate-free, and in particular no value containing an
ampersand is in it. -/
theorem extractCaptions_spec (content v : List Char) :
    (v ∈ extractCaptions content ↔
      v ∈ findallCaptions content ∧ matchesLowerIdent v = false ∧ '[' ∉ v ∧
        v.head? ≠ some '.' ∧ '&' ∉ v) ∧
    (extractCaptions content).Nodup ∧
    ('&' ∈ v → v ∉ extractCaptions content) := by
  have hiff : v ∈ extractCaptions content ↔
      v ∈ findallCaptions content ∧ matchesLowerIdent v = false ∧ '[' ∉ v ∧
        v.head? ≠ some '.' ∧ '&' ∉ v := by
    unfold extractCaptions
    rw [List.mem_dedup, List.mem_filter]
    unfold keepCaption
    simp [Bool.and_eq_true, Bool.not_eq_true', List.contains, and_assoc]
  refine ⟨hiff, List.nodup_dedup _, ?_⟩
  intro hamp hmem
  exact ((hiff.mp hmem).2.2.2.2) hamp

/-- Counterexample for C6 as stated: the caption value `abc` followed by a
newline is not a pure lowercase-and-underscore identifier and passes every
exclusion of the claim, yet the code filters it out, because `re.match` with
the dollar anchor also matches just before a trailing newline. -/
theorem extractCaptions_cex :
    ("abc\n".data ∈ findallCaptions ("caption='abc\n'".data)) ∧
    pureLowerUnderscore ("abc\n".data) = false ∧
    '[' ∉ "abc\n".data ∧ ("abc\n".data).head? ≠ some '.' ∧ '&' ∉ "abc\n".data ∧
    "abc\n".data ∉ extractCaptions ("caption='abc\n'".data) := by
  decide

/- ## C1: helper facts about the escaped translation -/

theorem escChar_ne_nil (c : Char) : escChar c ≠ [] := by
  unfold escChar
  split
  · decide
  · split
    · decide
    · split
      · decide
      · split
        · decide
        · split
          · decide
          · simp

theorem escChar_backslash (c : Char) (h : '\\' ∈ escChar c) : c = '\\' := by
  unfold escChar at h
  split at h
  · exact absurd h (by decide)
  · split at h
    · exact absurd h (by decide)
    · split at h
      · exact absurd h (by decide)
      · split at h
        · exact absurd h (by decide)
        · split at h
          · exact absurd h (by decide)
          · simp only [List.mem_singleton] at h
            exact h.symm

theorem escape_xml_attr_ne_nil (s : List Char) (h : s ≠ []) : escape_xml_attr s ≠ [] := by
  cases s with
  | nil => exact absurd rfl h
  | cons c t =>
    rw [escape_xml_attr_cons]
    intro he
    exact escChar_ne_nil c (List.append_eq_nil.mp he).1

theorem escape_xml_attr_backslash (s : List Char) (h : '\\' ∉ s) :
    '\\' ∉ escape_xml_attr s := by
  rw [escape_xml_attr_flat]
  intro hmem
  rw [List.mem_flatten] at hmem
  obtain ⟨l, hl, hcl⟩ := hmem
  rw [List.mem_map] at hl
  obtain ⟨c, hc, rfl⟩ := hl
  exact h (escChar_backslash c hcl ▸ hc)

theorem headIsDigit_escape (s : List Char) (h : headIsDigit s = false) :
    headIsDigit (escape_xml_attr s) = false := by
  cases s with
  | nil => rfl
  | cons c t =>
    rw [escape_xml_attr_cons]
    unfold escChar
    split
    · rfl
    · split
      · rfl
      · split
        · rfl
        · split
          · rfl
          · split
            · rfl
            · exact h

/- ## C1: parsing the well-formed replacement template -/

theorem isOct_isPyDigit (c : Char) (h : isOct c = true) : isPyDigit c = true := by
  unfold isOct at h
  unfold isPyDigit Char.isDigit
  simp only [Bool.and_eq_true, decide_eq_true_eq] at h ⊢
  constructor
  · have h1 : ('0' : Char) ≤ c := h.1
    exact h1
  · have h2 : c.val ≤ ('7' : Char).val := h.2
    have h9 : ('7' : Char).val ≤ 57 := by decide
    exact UInt32.le_trans h2 h9

theorem parseTmplF_lits (groups : Nat) :
    ∀ (s : List Char), '\\' ∉ s → ∀ (f : Nat) (tail1 : List Char),
    parseTmplF groups (f + s.length) (s ++ tail1) =
      (parseTmplF groups f tail1).map (fun ts => s.map Tok.lit ++ ts) := by
  intro s
  induction s with
  | nil =>
    intro _ f tail1
    simp only [List.length_nil, Nat.add_zero, List.nil_append, List.map_nil]
    cases parseTmplF groups f tail1 <;> simp
  | cons x t ih =>
    intro hx f tail1
    have hxne : x ≠ '\\' := fun e => hx (by simp [e])
    have ht : '\\' ∉ t := fun hm => hx (List.mem_cons_of_mem _ hm)
    have harith : f + (x :: t).length = (f + t.length) + 1 := by
      simp [List.length_cons]; omega
    rw [harith, List.cons_append]
    show parseTmplF groups ((f + t.length) + 1) (x :: (t ++ tail1)) = _
    simp only [parseTmplF]
    rw [if_neg hxne]
    rw [ih ht f tail1]
    cases parseTmplF groups f tail1 <;> simp

theorem parseTmplF_bs3 (f : Nat) : parseTmplF 3 (f + 2) ['\\', '3'] = some [Tok.grp 3] := rfl

theorem parseTmplF_step_bs (groups fuel : Nat) (e : Char) (r2 : List Char) :
    parseTmplF groups (fuel + 1) ('\\' :: e :: r2) =
      (match escStep groups e r2 with
       | some (ts, r3) => (parseTmplF groups fuel r3).map (fun out => ts ++ out)
       | none => none) := by
  rw [parseTmplF, if_pos rfl]

theorem escStep_one (x d3 : Char) (r3 : List Char) (hx : isPyDigit x = false) :
    escStep 3 '1' (x :: d3 :: r3) = some ([Tok.grp 1], x :: d3 :: r3) := by
  have hoct : isOct x = false := by
    cases hiso : isOct x
    · rfl
    · exact absurd (isOct_isPyDigit x hiso) (by simp [hx])
  unfold escStep digitEsc
  simp [hoct, hx, (show isPyDigit '1' = true from rfl), (show isOct '1' = true from rfl),
    groupRef, (show decVal '1' = 1 from rfl)]

theorem parseTmpl_ruleTmpl (repl : List Char) (h0 : repl ≠ []) (h1 : '\\' ∉ repl)
    (h2 : headIsDigit repl = false) :
    parseTmpl 3 (ruleTmpl repl) = some (Tok.grp 1 :: (repl.map Tok.lit ++ [Tok.grp 3])) := by
  obtain ⟨x, t, rfl⟩ : ∃ x t, repl = x :: t := by
    cases repl with
    | nil => exact absurd rfl h0
    | cons x t => exact ⟨x, t, rfl⟩
  have hx : isPyDigit x = false := h2
  obtain ⟨d3, r3, he⟩ : ∃ d3 r3, t ++ ['\\', '3'] = d3 :: r3 := by
    cases t <;> exact ⟨_, _, rfl⟩
  have hshape : (x :: t) ++ ['\\', '3'] = x :: d3 :: r3 := by rw [List.cons_append, he]
  unfold parseTmpl ruleTmpl
  have hfuel : ('\\' :: '1' :: ((x :: t) ++ ['\\', '3'])).length + 1 = (t.length + 5) + 1 := by
    simp [List.length_cons, List.length_append]
  rw [hfuel, parseTmplF_step_bs]
  rw [hshape, escStep_one x d3 r3 hx, ← hshape]
  have hfits : t.length + 5 = 4 + (x :: t).length := by simp [List.length_cons]; omega
  rw [hfits]
  show (parseTmplF 3 (4 + (x :: t).length) ((x :: t) ++ ['\\', '3'])).map
      (fun out => [Tok.grp 1] ++ out) = _
  rw [parseTmplF_lits 3 (x :: t) h1 4 ['\\', '3'], parseTmplF_bs3 2]
  simp

theorem renderToks_lin (repl : List Char) (r : MatchRes) (orig : List Char) :
    renderToks (Tok.grp 1 :: (repl.map Tok.lit ++ [Tok.grp 3])) r orig =
      r.pre ++ repl ++ r.suf := by
  have hmid : ∀ l : List Char, (((l.map Tok.lit).map (tokOut r orig)).flatten) = l := by
    intro l
    induction l with
    | nil => rfl
    | cons a t ih => simpa [tokOut] using ih
  unfold renderToks
  simp only [List.map_cons, List.map_append, List.flatten_cons, List.flatten_append]
  rw [hmid]
  simp [tokOut]

/- ## C1: the thirteen matchers are well behaved -/

theorem litRule_good (head orig : List Char) (hh : head ≠ []) :
    MGood orig (litRule head orig) := by
  intro s r h
  unfold litRule at h
  cases h1 : dropLit head s with
  | none => rw [h1] at h; cases h
  | some s1 =>
    rw [h1] at h
    try dsimp only at h
    cases h2 : dropLit orig s1 with
    | none => rw [h2] at h; cases h
    | some s2 =>
      rw [h2] at h
      try dsimp only at h
      cases h3 : dropLit ['\''] s2 with
      | none => rw [h3] at h; cases h
      | some s3 =>
        rw [h3] at h
        try dsimp only at h
        obtain rfl : (⟨head, orig, ['\'']⟩ : MatchRes) = r := Option.some.inj h
        refine ⟨⟨s3, ?_⟩, hh, [], [], by simp, by simp, by simp⟩
        rw [dropLit_sound _ _ _ h1, dropLit_sound _ _ _ h2, dropLit_sound _ _ _ h3]
        simp

theorem gapRule_good (head tail orig : List Char) (hh : head ≠ []) :
    MGood orig (gapRule head tail orig) := by
  intro s r h
  unfold gapRule at h
  cases h1 : dropLit head s with
  | none => rw [h1] at h; cases h
  | some s1 =>
    rw [h1] at h
    try dsimp only at h
    obtain ⟨k, hk, hf⟩ := tryGreedy_some _ _ _ h
    try dsimp only at hf
    split at hf
    · cases h2 : dropLit tail (s1.drop k) with
      | none => rw [h2] at hf; cases hf
      | some s2 =>
        rw [h2] at hf
        try dsimp only at hf
        cases h3 : dropLit orig s2 with
        | none => rw [h3] at hf; cases hf
        | some s3 =>
          rw [h3] at hf
          try dsimp only at hf
          cases h4 : dropLit ['\''] s3 with
          | none => rw [h4] at hf; cases hf
          | some s4 =>
            rw [h4] at hf
            try dsimp only at hf
            obtain rfl : (⟨head ++ s1.take k ++ tail, orig, ['\'']⟩ : MatchRes) = r :=
              Option.some.inj hf
            refine ⟨⟨s4, ?_⟩, by simp [hh], [], [], by simp, by simp, by simp⟩
            rw [dropLit_sound _ _ _ h1]
            conv_lhs => rw [← List.take_append_drop k s1]
            rw [dropLit_sound _ _ _ h2, dropLit_sound _ _ _ h3, dropLit_sound _ _ _ h4]
            simp
    · cases hf

theorem runRule_good (orig : List Char) : MGood orig (runRule orig) := by
  intro s r h
  unfold runRule at h
  cases h1 : dropLit ("<run".data) s with
  | none => rw [h1] at h; cases h
  | some s1 =>
    rw [h1] at h
    try dsimp only at h
    obtain ⟨k, hk, hf⟩ := tryGreedy_some _ _ _ h
    try dsimp only at hf
    split at hf
    · cases h2 : dropLit ['>'] (s1.drop k) with
      | none => rw [h2] at hf; cases hf
      | some s2 =>
        rw [h2] at hf
        try dsimp only at hf
        cases h3 : dropLit orig s2 with
        | none => rw [h3] at hf; cases hf
        | some s3 =>
          rw [h3] at hf
          try dsimp only at hf
          cases h4 : dropLit ("</run>".data) s3 with
          | none => rw [h4] at hf; cases hf
          | some s4 =>
            rw [h4] at hf
            try dsimp only at hf
            obtain rfl : (⟨"<run".data ++ s1.take k ++ ['>'], orig, "</run>".data⟩ : MatchRes) =
                r := Option.some.inj hf
            refine ⟨⟨s4, ?_⟩, by simp, [], [], by simp, by simp, by simp⟩
            rw [dropLit_sound _ _ _ h1]
            conv_lhs => rw [← List.take_append_drop k s1]
            rw [dropLit_sound _ _ _ h2, dropLit_sound _ _ _ h3, dropLit_sound _ _ _ h4]
            simp
    · cases hf

theorem runWsTail_sound (orig s2 : List Char) (r : MatchRes) (h : runWsTail orig s2 = some r) :
    ∃ w1 w2 rest, r = ⟨[], w1 ++ orig ++ w2, "</run>".data⟩ ∧
      (∀ c ∈ w1, isPySpace c = true) ∧ (∀ c ∈ w2, isPySpace c = true) ∧
      s2 = w1 ++ orig ++ w2 ++ "</run>".data ++ rest := by
  unfold runWsTail at h
  obtain ⟨j, hj, hf⟩ := tryGreedy_some _ _ _ h
  try dsimp only at hf
  split at hf
  case isTrue hw1 =>
    cases h2 : dropLit orig (s2.drop j) with
    | none => rw [h2] at hf; cases hf
    | some s3 =>
      rw [h2] at hf
      try dsimp only at hf
      obtain ⟨l, hl, hf2⟩ := tryGreedy_some _ _ _ hf
      try dsimp only at hf2
      split at hf2
      case isTrue hw2 =>
        cases h3 : dropLit ("</run>".data) (s3.drop l) with
        | none => rw [h3] at hf2; cases hf2
        | some s4 =>
          rw [h3] at hf2
          try dsimp only at hf2
          refine ⟨s2.take j, s3.take l, s4, (Option.some.inj hf2).symm, ?_, ?_, ?_⟩
          · intro c hc
            exact List.all_eq_true.mp hw1 c hc
          · intro c hc
            exact List.all_eq_true.mp hw2 c hc
          · conv_lhs => rw [← List.take_append_drop j s2]
            rw [dropLit_sound _ _ _ h2]
            conv_lhs => rw [← List.take_append_drop l s3]
            rw [dropLit_sound _ _ _ h3]
            simp
      case isFalse => cases hf2
  case isFalse => cases hf

theorem runWsRule_good (orig : List Char) : MGood orig (runWsRule orig) := by
  intro s r h
  unfold runWsRule at h
  cases h1 : dropLit ("<run".data) s with
  | none => rw [h1] at h; cases h
  | some s1 =>
    rw [h1] at h
    try dsimp only at h
    obtain ⟨k, hk, hf⟩ := tryGreedy_some _ _ _ h
    try dsimp only at hf
    split at hf
    · cases h2 : dropLit ['>'] (s1.drop k) with
      | none => rw [h2] at hf; cases hf
      | some s2 =>
        rw [h2] at hf
        try dsimp only at hf
        cases h3 : runWsTail orig s2 with
        | none => rw [h3] at hf; cases hf
        | some rt =>
          rw [h3] at hf
          try dsimp only at hf
          obtain ⟨w1, w2, rest, hrt, hw1, hw2, hs2⟩ := runWsTail_sound orig s2 rt h3
          obtain rfl : (⟨"<run".data ++ s1.take k ++ ['>'], rt.mid, rt.suf⟩ : MatchRes) = r :=
            Option.some.inj hf
          refine ⟨⟨rest, ?_⟩, by simp, w1, w2, hw1, hw2, by rw [hrt]⟩
          rw [dropLit_sound _ _ _ h1]
          conv_lhs => rw [← List.take_append_drop k s1]
          rw [dropLit_sound _ _ _ h2, hs2, hrt]
          simp
    · cases hf

theorem aliasRule_good (orig : List Char) : MGood orig (aliasRule orig) := by
  intro s r h
  unfold aliasRule at h
  cases h1 : dropLit ("<alias key='".data) s with
  | none => rw [h1] at h; cases h
  | some s1 =>
    rw [h1] at h
    try dsimp only at h
    split at h
    · cases h
    · cases h2 : dropLit ("' value='".data) (s1.dropWhile (· ≠ '\'')) with
      | none => rw [h2] at h; cases h
      | some s2 =>
        rw [h2] at h
        try dsimp only at h
        cases h3 : dropLit orig s2 with
        | none => rw [h3] at h; cases h
        | some s3 =>
          rw [h3] at h
          try dsimp only at h
          cases h4 : dropLit ("' />".data) s3 with
          | none => rw [h4] at h; cases h
          | some s4 =>
            rw [h4] at h
            try dsimp only at h
            obtain rfl :
                (⟨"<alias key='".data ++ s1.takeWhile (· ≠ '\'') ++ "' value='".data,
                  orig, "' />".data⟩ : MatchRes) = r := Option.some.inj h
            refine ⟨⟨s4, ?_⟩, by simp, [], [], by simp, by simp, by simp⟩
            rw [dropLit_sound _ _ _ h1]
            conv_lhs => rw [← List.takeWhile_append_dropWhile (· ≠ '\'') s1]
            rw [dropLit_sound _ _ _ h2, dropLit_sound _ _ _ h3, dropLit_sound _ _ _ h4]
            simp

theorem rulesList_good (orig : List Char) : ∀ m ∈ rulesList orig, MGood orig m := by
  intro m hm
  simp only [rulesList, List.mem_cons, List.not_mem_nil, or_false] at hm
  rcases hm with rfl | rfl | rfl | rfl | rfl | rfl | rfl | rfl | rfl | rfl | rfl | rfl | rfl
  · intro s r h
    rcases orElseM_some _ _ _ h with h' | h'
    · exact litRule_good _ orig (by decide) s r h'
    · exact litRule_good _ orig (by decide) s r h'
  · exact litRule_good _ orig (by decide)
  · exact litRule_good _ orig (by decide)
  · exact gapRule_good _ _ orig (by decide)
  · exact litRule_good _ orig (by decide)
  · intro s r h
    rcases orElseM_some _ _ _ h with h' | h'
    · exact gapRule_good _ _ orig (by decide) s r h'
    · exact gapRule_good _ _ orig (by decide) s r h'
  · exact gapRule_good _ _ orig (by decide)
  · exact gapRule_good _ _ orig (by decide)
  · exact litRule_good _ orig (by decide)
  · exact aliasRule_good orig
  · exact litRule_good _ orig (by decide)
  · exact runRule_good orig
  · exact runWsRule_good orig

/- ## C1: the frame property of one pass and of the whole of `safe_replace` -/

theorem subnF_frame (m : List Char → Option MatchRes) (o repl : List Char)
    (hm : MGood o m) :
    ∀ fuel s, s.length ≤ fuel →
      FrameStep o repl s (subnF m (fun r => r.pre ++ repl ++ r.suf) fuel s).1 := by
  intro fuel
  induction fuel with
  | zero =>
    intro s hs
    have hnil : s = [] := List.eq_nil_of_length_eq_zero (Nat.le_zero.mp hs)
    subst hnil
    exact ⟨[], by simp, by simp [subnF], by simp⟩
  | succ n ih =>
    intro s hs
    cases s with
    | nil => exact ⟨[], by simp, by simp [subnF], by simp⟩
    | cons c cs =>
      cases hmatch : m (c :: cs) with
      | none =>
        obtain ⟨ps, hin, hout, hsub⟩ := ih cs (by
          simp only [List.length_cons] at hs
          omega)
        refine ⟨Piece.keep c :: ps, ?_, ?_, ?_⟩
        · simp only [List.map_cons, List.flatten_cons, pieceIn]
          rw [← hin]
          rfl
        · show (subnF m _ (n + 1) (c :: cs)).1 = _
          simp only [subnF, hmatch]
          simp only [List.map_cons, List.flatten_cons, pieceOut]
          rw [← hout]
          rfl
        · intro pre w1 w2 suf hmem
          rcases List.mem_cons.mp hmem with he | hmem2
          · cases he
          · exact hsub _ _ _ _ hmem2
      | some r =>
        obtain ⟨⟨rest, hdecomp⟩, hpre, w1, w2, hw1, hw2, hmid⟩ := hm _ _ hmatch
        have hlen0 : 0 < matchLen r := by
          have := List.length_pos.mpr hpre
          unfold matchLen
          omega
        have hbig : (c :: cs) = (r.pre ++ r.mid ++ r.suf) ++ rest := by
          rw [hdecomp]
        have hdrop : (c :: cs).drop (matchLen r) = rest := by
          rw [hbig]
          have hml : matchLen r = (r.pre ++ r.mid ++ r.suf).length := by
            simp only [matchLen, List.length_append]
          rw [hml, List.drop_left]
        have hrlen : rest.length ≤ n := by
          have hlen1 : (c :: cs).length = (r.pre ++ r.mid ++ r.suf).length + rest.length := by
            rw [hbig]
            simp only [List.length_append]
          have hlen2 : (r.pre ++ r.mid ++ r.suf).length = matchLen r := by
            simp only [matchLen, List.length_append]
          simp only [List.length_cons] at hs hlen1
          omega
        obtain ⟨ps, hin, hout, hsub⟩ := ih rest hrlen
        refine ⟨Piece.subst r.pre w1 w2 r.suf :: ps, ?_, ?_, ?_⟩
        · simp only [List.map_cons, List.flatten_cons, pieceIn]
          rw [hbig, ← hin, ← hmid]
        · show (subnF m _ (n + 1) (c :: cs)).1 = _
          simp only [subnF, hmatch, hdrop]
          rw [if_pos hlen0]
          simp only [List.map_cons, List.flatten_cons, pieceOut]
          rw [← hout]
        · intro pre w1' w2' suf hmem
          rcases List.mem_cons.mp hmem with he | hmem2
          · injection he with e1 e2 e3 e4
            subst e2
            subst e3
            exact ⟨hw1, hw2⟩
          · exact hsub _ _ _ _ hmem2

theorem subn_frame (m : List Char → Option MatchRes) (o repl : List Char)
    (hm : MGood o m) (s : List Char) :
    FrameStep o repl s (subn m (fun r => r.pre ++ repl ++ r.suf) s).1 :=
  subnF_frame m o repl hm s.length s (Nat.le_refl _)

theorem foldl_passStep_frame (o repl : List Char) (toks : List Tok)
    (htoks : ∀ r, renderToks toks r o = r.pre ++ repl ++ r.suf) :
    ∀ (ms : List (List Char → Option MatchRes)), (∀ m ∈ ms, MGood o m) →
    ∀ (s : List Char) (n : Nat),
      Relation.ReflTransGen (FrameStep o repl) s ((ms.foldl (passStep o toks) (s, n)).1) := by
  intro ms
  induction ms with
  | nil =>
    intro _ s n
    exact Relation.ReflTransGen.refl
  | cons m ms ih =>
    intro hall s n
    rw [List.foldl_cons]
    have hout : (fun r => renderToks toks r o) = (fun r => r.pre ++ repl ++ r.suf) :=
      funext htoks
    have hstep : FrameStep o repl s (subn m (fun r => renderToks toks r o) s).1 := by
      rw [hout]
      exact subn_frame m o repl (hall m (List.mem_cons_self m ms)) s
    exact Relation.ReflTransGen.head hstep
      (ih (fun m' hm' => hall m' (List.mem_cons_of_mem _ hm'))
        ((subn m (fun r => renderToks toks r o) s).1)
        (n + (subn m (fun r => renderToks toks r o) s).2))

/-- C1 (amended): provided the translated string contains no backslash and
does not begin with a decimal digit (so that the replacement template
`"\1" + escaped translation + "\3"` parses as the two anchors around a
literal), `safe_replace` succeeds and transforms the document by a chain of
thirteen frame-preserving passes: each pass rewrites only the
whitespace-padded occurrences of the original captured by its rule, re-emits
the anchor text of every match verbatim, and leaves every byte outside the
substituted spans unchanged. -/
theorem safe_replace_frame (content original translated : List Char)
    (hbs : '\\' ∉ translated) (hhd : headIsDigit translated = false) :
    ∃ res : List Char × Nat,
      safe_replace content original translated = Except.ok res ∧
      Relation.ReflTransGen (FrameStep original (escape_xml_attr translated)) content res.1 := by
  unfold safe_replace
  by_cases hg : (original = [] || translated = [] || original = translated) = true
  · rw [if_pos hg]
    exact ⟨(content, 0), rfl, Relation.ReflTransGen.refl⟩
  · rw [if_neg hg]
    simp only [Bool.or_eq_true, decide_eq_true_eq, not_or] at hg
    have ht : translated ≠ [] := hg.1.2
    have hrepl_ne : escape_xml_attr translated ≠ [] := escape_xml_attr_ne_nil _ ht
    have hrepl_bs : '\\' ∉ escape_xml_attr translated := escape_xml_attr_backslash _ hbs
    have hrepl_hd : headIsDigit (escape_xml_attr translated) = false := headIsDigit_escape _ hhd
    rw [parseTmpl_ruleTmpl _ hrepl_ne hrepl_bs hrepl_hd]
    refine ⟨(rulesList original).foldl
      (passStep original
        (Tok.grp 1 :: ((escape_xml_attr translated).map Tok.lit ++ [Tok.grp 3])))
      (content, 0), rfl, ?_⟩
    exact foldl_passStep_frame original (escape_xml_attr translated) _
      (fun r => renderToks_lin _ r original) (rulesList original) (rulesList_good original)
      content 0

/-- Witness for C1 (amended) at a concrete worksheet rename. -/
theorem safe_replace_frame_w :
    ('\\' ∉ "Hello".data) ∧ headIsDigit ("Hello".data) = false ∧
    ∃ res : List Char × Nat,
      safe_replace ("<worksheet name='Tere'>".data) ("Tere".data) ("Hello".data) =
        Except.ok res ∧
      Relation.ReflTransGen (FrameStep ("Tere".data) (escape_xml_attr ("Hello".data)))
        ("<worksheet name='Tere'>".data) res.1 :=
  ⟨by decide, by decide,
    safe_replace_frame ("<worksheet name='Tere'>".data) ("Tere".data) ("Hello".data)
      (by decide) (by decide)⟩

/-- Counterexample for C1 as stated: with the translation consisting of a
backslash and the digit 2, the replacement template becomes three group
references, so the caption match is rewritten to itself — the escaped
translation (which contains a backslash) appears nowhere in the result, yet
one replacement is counted. -/
theorem safe_replace_frame_cex :
    safe_replace ("caption='X'".data) ("X".data) ['\\', '2'] =
      Except.ok ("caption='X'".data, 1) ∧
    escape_xml_attr ['\\', '2'] = ['\\', '2'] ∧
    '\\' ∉ "caption='X'".data := by
  refine ⟨?_, by decide, by decide⟩
  rfl

/-- Witness for C6 (amended) on a concrete caption that passes every filter. -/
theorem extractCaptions_spec_w :
    "Tulu".data ∈ extractCaptions ("caption='Tulu'".data) :=
  (extractCaptions_spec ("caption='Tulu'".data) ("Tulu".data)).1.mpr
    ⟨by decide, by decide, by decide, by decide, by decide⟩
